import Mathlib

/-!
Verification development for the MLB ETL pipeline (`scripts/run_etl.py`).

The pipeline has three transforms over lists of records:
* `process_games`      — keep the freshest schedule row per `gamePk`;
* `process_linescores` — deduplicate `(gamePk, inning, half)` rows and derive
  `battingteam_score` / `battingteam_score_diff` via grouped cumulative sums;
* `process_runner_play` — deduplicate runner movement segments and merge the
  segments of each play into one aggregated record with derived boolean flags.

pandas `sort_values` with several `by` columns is a stable lexicographic sort
(`numpy.lexsort`); we model it with a stable insertion sort `sortS` driven by a
boolean strict comparator.  `drop_duplicates(keep="first")` keeps the first
occurrence of each key in the current row order; we model it with `dropDupsBy`.
String comparisons are code-point lexicographic, as in Python/pandas.
-/

set_option maxHeartbeats 1600000

namespace ETL

/-! ### Definitions: comparators -/

/-- Laws making a boolean comparator a strict total order, as needed to reason
about the stable sorts: asymmetry, transitivity, connectivity. -/
structure LawfulCmp {α : Type u} (lt : α → α → Bool) : Prop where
  asym : ∀ a b : α, lt a b = true → lt b a = false
  lt_trans : ∀ a b c : α, lt a b = true → lt b c = true → lt a c = true
  conn : ∀ a b : α, lt a b = true ∨ lt b a = true ∨ a = b

/-- Comparator for `Nat` columns. -/
def natLt (a b : Nat) : Bool := decide (a < b)

/-- Code-point comparison of characters (Python compares strings by code
point). -/
def charLt (a b : Char) : Bool := decide (a.toNat < b.toNat)

/-- Lexicographic comparison of lists given a comparator on elements. -/
def listLt (lt : α → α → Bool) [DecidableEq α] : List α → List α → Bool
  | [], [] => false
  | [], _ :: _ => true
  | _ :: _, [] => false
  | a :: as, b :: bs => lt a b || (decide (a = b) && listLt lt as bs)

/-- Comparator for `String` columns: code-point lexicographic order on the
underlying character list, exactly Python's `str` ordering. -/
def strLt (a b : String) : Bool := listLt charLt a.data b.data

/-- Lexicographic combination of two sort-key columns (pandas sorts by the
first column, breaking ties by the second). -/
def prodLt (lt1 : α → α → Bool) (lt2 : β → β → Bool) [DecidableEq α]
    (p q : α × β) : Bool :=
  lt1 p.1 q.1 || (decide (p.1 = q.1) && lt2 p.2 q.2)

/-- Ordering of a nullable sort-key column: pandas places missing values last
in an ascending sort (`na_position="last"`), so `none` is greatest. -/
def optLt (lt : α → α → Bool) : Option α → Option α → Bool
  | some a, some b => lt a b
  | some _, none => true
  | none, _ => false

/-! ### Definitions: stable sort and drop_duplicates

pandas `sort_values` with a list of `by` columns uses `numpy.lexsort`, a
stable sort: rows tied on every sort column keep their input order.  We model
it with a stable insertion sort: `insertS lt x s` places `x` before the first
element of `s` that is not strictly before `x`.
`DataFrame.drop_duplicates(subset=K, keep="first")` keeps the first row of
each key in the current row order and preserves the order of the kept rows. -/

/-- Insert `x` into `s`, passing exactly the elements strictly before `x`. -/
def insertS (lt : α → α → Bool) (x : α) : List α → List α
  | [] => [x]
  | y :: ys => if lt y x then y :: insertS lt x ys else x :: y :: ys

/-- Stable sort by the strict comparator `lt` (ties keep input order). -/
def sortS (lt : α → α → Bool) : List α → List α
  | [] => []
  | a :: l => insertS lt a (sortS lt l)

/-- Keeps each row whose key has not been seen yet (`seen` accumulates keys). -/
def dropDupsAux (key : α → κ) [DecidableEq κ] : List κ → List α → List α
  | _, [] => []
  | seen, a :: l =>
    if key a ∈ seen then dropDupsAux key seen l
    else a :: dropDupsAux key (key a :: seen) l

/-- Model of `drop_duplicates(subset=key, keep="first")`. -/
def dropDupsBy (key : α → κ) [DecidableEq κ] (l : List α) : List α :=
  dropDupsAux key [] l

/-! ### Definitions: the extract deduplicator

`process_games` / `process_linescores` / `process_runner_play` each do

    df.sort_values([key columns..., "source_folder_date"],
                   ascending=[True, ..., True, False])
    df.drop_duplicates(subset=[key columns...], keep="first")

i.e. a stable sort by (key ascending, batch date descending) followed by
keeping the first row per key.  `dedupLt` is that sort's comparator. -/

/-- Strict comparator of the dedup sort: key ascending, then batch date
descending; rows tied on both compare as equal (stable order applies). -/
def dedupLt [DecidableEq κ] (kLt : κ → κ → Bool) (key : α → κ)
    (dLt : δ → δ → Bool) (date : α → δ) (a b : α) : Bool :=
  kLt (key a) (key b) || (decide (key a = key b) && dLt (date b) (date a))

/-- Strict comparator sorting by a key only (used by the plain re-sorts). -/
def keyLt (kLt : κ → κ → Bool) (key : α → κ) (a b : α) : Bool :=
  kLt (key a) (key b)

/-- The shared deduplication step: stable sort by (key asc, batch desc), then
keep the first row of each key. -/
def dedupBy [DecidableEq κ] (kLt : κ → κ → Bool) (key : α → κ)
    (dLt : δ → δ → Bool) (date : α → δ) (rows : List α) : List α :=
  dropDupsBy key (sortS (dedupLt kLt key dLt date) rows)

/-! ### Definitions: games (`process_games`, run_etl.py lines 70-78)

A raw schedule row: `gamePk` plus opaque schedule content, tagged by
`load_all_csvs` with the source folder date (the extraction batch). -/

/-- Raw `games.csv` row (schedule fields collapsed into one opaque field). -/
structure GRaw where
  gamePk : Nat
  sched : String
  source_folder_date : String
deriving DecidableEq

/-- Output schedule row: `source_folder_date` is dropped (line 77). -/
structure GOut where
  gamePk : Nat
  sched : String
deriving DecidableEq

/-- Dedup of `process_games`: sort by (`gamePk` asc, `source_folder_date`
desc), keep the first row per `gamePk` (lines 75-76). -/
def gamesDedup (rows : List GRaw) : List GRaw :=
  dedupBy natLt (fun r => r.gamePk) strLt (fun r => r.source_folder_date) rows

/-- Model of `process_games` (lines 70-78). -/
def process_games (rows : List GRaw) : List GOut :=
  (gamesDedup rows).map (fun r => { gamePk := r.gamePk, sched := r.sched })

/-! ### Definitions: linescores (`process_linescores`, run_etl.py lines 84-123) -/

/-- Two extracts of the same game, the second from a later batch. -/
def exG2 : List GRaw :=
  [⟨1, "a", "2025-04-01"⟩, ⟨1, "b", "2025-04-02"⟩]

/-- A key-unique but unsorted games input. -/
def exG8 : List GRaw :=
  [⟨2, "x", "2025-04-01"⟩, ⟨1, "y", "2025-04-01"⟩]

/-- Raw `linescores.csv` row; `runs` is nullable (read as NaN-able float). -/
structure LRaw where
  gamePk : Nat
  inning : Nat
  half : String
  battingteamid : Nat
  runs : Option Int
  source_folder_date : String
deriving DecidableEq

/-- Linescore row after `df["runs"] = df["runs"].fillna(0).astype(int)`
(line 98). -/
structure LNorm where
  gamePk : Nat
  inning : Nat
  half : String
  battingteamid : Nat
  runs : Int
  source_folder_date : String
deriving DecidableEq

instance : Inhabited LNorm := ⟨⟨0, 0, "", 0, 0, ""⟩⟩

/-- Output linescore row: the base columns plus the two derived columns; the
intermediate columns `cum_runs_batting`, `cum_runs_total`, `total_score` and
the batch tag `source_folder_date` are dropped (line 122). -/
structure LOut where
  gamePk : Nat
  inning : Nat
  half : String
  battingteamid : Nat
  runs : Int
  battingteam_score : Int
  battingteam_score_diff : Int
deriving DecidableEq

instance : Inhabited LOut := ⟨⟨0, 0, "", 0, 0, 0, 0⟩⟩

/-- The linescore natural key `(gamePk, inning, half)`. -/
def lsKey (r : LRaw) : Nat × (Nat × String) := (r.gamePk, (r.inning, r.half))

/-- The same key on normalized rows. -/
def lsKeyN (r : LNorm) : Nat × (Nat × String) := (r.gamePk, (r.inning, r.half))

/-- Comparator for the linescore key tuple. -/
def lsKeyLt : Nat × (Nat × String) → Nat × (Nat × String) → Bool :=
  prodLt natLt (prodLt natLt strLt)

/-- Dedup of `process_linescores` (lines 94-95): sort by (`gamePk`, `inning`,
`half` asc, `source_folder_date` desc), keep first per key. -/
def lsDedup (rows : List LRaw) : List LRaw :=
  dedupBy lsKeyLt lsKey strLt (fun r => r.source_folder_date) rows

/-- Line 98: `runs` null is replaced by 0 and the column is cast to int.  No
clamping happens: present values (negative ones included) pass through. -/
def normRuns (r : LRaw) : LNorm :=
  { gamePk := r.gamePk, inning := r.inning, half := r.half,
    battingteamid := r.battingteamid, runs := r.runs.getD 0,
    source_folder_date := r.source_folder_date }

/-- Line 101: re-sort by (`gamePk`, `inning`, `half`) ascending, `half` being
compared as a string (so within an inning "BOT" sorts before "TOP"). -/
def lsSorted (rows : List LRaw) : List LNorm :=
  sortS (keyLt lsKeyLt lsKeyN) ((lsDedup rows).map normRuns)

/-- The `(gamePk, battingteamid)` grouping of line 104. -/
def grpBT (r : LNorm) : Nat × Nat := (r.gamePk, r.battingteamid)

/-- The `gamePk` grouping of line 105. -/
def grpG (r : LNorm) : Nat := r.gamePk

/-- Sum of `runs` over the first `n` rows that lie in group `k`. -/
def prefSum (g : LNorm → κ) [DecidableEq κ] (rows : List LNorm) (n : Nat)
    (k : κ) : Int :=
  (((rows.take n).filter (fun r => decide (g r = k))).map (fun r => r.runs)).sum

/-- pandas `df.groupby(g)["runs"].cumsum()` at row `i`: the sum of `runs`
over the rows up to and including `i` that share row `i`'s group. -/
def cumAt (g : LNorm → κ) [DecidableEq κ] (rows : List LNorm) (i : Nat) : Int :=
  prefSum g rows (i + 1) (g (rows.getD i default))

/-- Largest `j < i` satisfying `q`, if any. -/
def lastMatch (q : Nat → Bool) : Nat → Option Nat
  | 0 => none
  | i + 1 => if q i then some i else lastMatch q i

/-- Index of the previous row in row `i`'s group, if any (the row that
`groupby(g).shift(1)` reads from). -/
def prevSame (g : LNorm → κ) [DecidableEq κ] (rows : List LNorm) (i : Nat) :
    Option Nat :=
  lastMatch (fun j => decide (g (rows.getD j default) = g (rows.getD i default))) i

/-- pandas `df.groupby(g)[cum].shift(1).fillna(0).astype(int)` at row `i`,
where `cum` is the grouped cumulative sum of `runs` (lines 107-118): the
cumulative sum at the previous row of the group, or 0 for the group's first
row. -/
def shiftCum (g : LNorm → κ) [DecidableEq κ] (rows : List LNorm) (i : Nat) : Int :=
  match prevSame g rows i with
  | some j => cumAt g rows j
  | none => 0

/-- Row `i` of the output: base columns copied from the sorted deduplicated
row, `battingteam_score` / `total_score` from the shifted grouped cumulative
sums, and `battingteam_score_diff` from line 120; intermediate columns are
dropped (line 122). -/
def mkLOut (rows : List LNorm) (i : Nat) : LOut :=
  { gamePk := (rows.getD i default).gamePk,
    inning := (rows.getD i default).inning,
    half := (rows.getD i default).half,
    battingteamid := (rows.getD i default).battingteamid,
    runs := (rows.getD i default).runs,
    battingteam_score := shiftCum grpBT rows i,
    battingteam_score_diff :=
      shiftCum grpBT rows i - (shiftCum grpG rows i - shiftCum grpBT rows i) }

/-- Model of `process_linescores` (lines 84-123). -/
def process_linescores (raw : List LRaw) : List LOut :=
  (List.range (lsSorted raw).length).map (mkLOut (lsSorted raw))

/-- The spec's linescore scenario: three half-innings of one game, teams 10
("A") and 20 ("B"), all from a single extraction batch. -/
def scenC1 : List LRaw :=
  [⟨1, 1, "TOP", 10, some 2, "2025-04-01"⟩,
   ⟨1, 1, "BOT", 20, some 0, "2025-04-01"⟩,
   ⟨1, 2, "TOP", 10, some 1, "2025-04-01"⟩]

/-- A linescore input with a negative `runs` value (second row of the same
game and team lets the negative value flow into the cumulative sum). -/
def exNegRuns : List LRaw :=
  [⟨1, 1, "TOP", 10, some (-1), "2025-04-01"⟩,
   ⟨1, 2, "TOP", 10, some 0, "2025-04-01"⟩]

/-! ### Definitions: runner plays (`process_runner_play`, run_etl.py lines 158-227) -/

/-- Raw `runners.csv` row.  Base columns (`originBase`, `start`, `end`,
`outbase`) are nullable strings; `load_all_csvs` adds `source_folder_date`. -/
structure RRaw where
  gamePk : Nat
  atBatIndex : Nat
  playIndex : Nat
  runnerid : Nat
  runnerfullname : String
  originBase : Option String
  start : Option String
  «end» : Option String
  isOut : Bool
  eventtype : Option String
  movementreason : Option String
  playid : String
  outbase : Option String
  source_folder_date : String
deriving DecidableEq

/-- The dedup subset of lines 166-170: note it uses the raw `start` and `end`
columns (the rename of `originBase` to `startbase` happens only afterwards,
line 173). -/
def rKey (r : RRaw) :
    Nat × (Nat × (Nat × (Nat × (Option String × Option String)))) :=
  (r.gamePk, (r.atBatIndex, (r.playIndex, (r.runnerid, (r.start, r.«end»)))))

/-- Comparator for the six-column runner dedup key. -/
def rKeyLt :
    Nat × (Nat × (Nat × (Nat × (Option String × Option String)))) →
    Nat × (Nat × (Nat × (Nat × (Option String × Option String)))) → Bool :=
  prodLt natLt (prodLt natLt (prodLt natLt (prodLt natLt
    (prodLt (optLt strLt) (optLt strLt)))))

instance : DecidableEq (Nat × (Nat × (Nat × (Nat × (Option String × Option String))))) :=
  instDecidableEqProd

/-- Dedup of `process_runner_play` (lines 166-170). -/
def rDedup (rows : List RRaw) : List RRaw :=
  dedupBy rKeyLt rKey strLt (fun r => r.source_folder_date) rows

/-- `BASE_MAP_REPLACE` (lines 129-132): terminal home-plate variants `score`
and `4B` are canonicalized to `HM` (applied by `.replace`, lines 190-192). -/
def canonBase (b : String) : String :=
  if b = "score" ∨ b = "4B" then "HM" else b

/-- Movement segment after the rename (line 173), column lowercasing
(line 182), base fill with `"B"` (lines 185-187) and home canonicalization
(lines 190-192). -/
structure Seg where
  gamepk : Nat
  atbatindex : Nat
  playindex : Nat
  runnerid : Nat
  runnerfullname : String
  startbase : String
  start : String
  endbase : String
  is_out : Bool
  eventtype : Option String
  movementreason : Option String
  playid : String
  outbase : Option String
  source_folder_date : String
deriving DecidableEq

instance : Inhabited Seg :=
  ⟨⟨0, 0, 0, 0, "", "", "", "", false, none, none, "", none, ""⟩⟩

/-- Lines 173-192 as one per-row map: rename `originBase` to `startbase`,
`end` to `endbase`, `isOut` to `is_out`; fill missing `startbase`, `endbase`,
`start` with `"B"`; replace home variants in `endbase` and `outbase`. -/
def toSeg (r : RRaw) : Seg :=
  { gamepk := r.gamePk, atbatindex := r.atBatIndex, playindex := r.playIndex,
    runnerid := r.runnerid, runnerfullname := r.runnerfullname,
    startbase := r.originBase.getD "B",
    start := r.start.getD "B",
    endbase := canonBase (r.«end».getD "B"),
    is_out := r.isOut,
    eventtype := r.eventtype, movementreason := r.movementreason,
    playid := r.playid,
    outbase := r.outbase.map canonBase,
    source_folder_date := r.source_folder_date }

/-- The sort key of line 195: (`gamepk`, `atbatindex`, `playindex`) only. -/
def segPlayKey3 (s : Seg) : Nat × (Nat × Nat) :=
  (s.gamepk, (s.atbatindex, s.playindex))

/-- Comparator for that three-column sort key. -/
def play3Lt : Nat × (Nat × Nat) → Nat × (Nat × Nat) → Bool :=
  prodLt natLt (prodLt natLt natLt)

/-- The grouping key of line 197:
(`gamepk`, `atbatindex`, `playindex`, `runnerid`). -/
def segKey4 (s : Seg) : Nat × Nat × Nat × Nat :=
  (s.gamepk, s.atbatindex, s.playindex, s.runnerid)

/-- The deduplicated, renamed, normalized and re-sorted segment table right
before the groupby of line 197. -/
def rSorted (rows : List RRaw) : List Seg :=
  sortS (keyLt play3Lt segPlayKey3) ((rDedup rows).map toSeg)

/-- pandas `groupby(key, sort=False)`: one group per key in order of first
occurrence, each group holding all its rows in table order. -/
def groupByKey (key : α → κ) [DecidableEq κ] (rows : List α) :
    List (κ × List α) :=
  (dropDupsBy (fun k => k) (rows.map key)).map
    (fun k => (k, rows.filter (fun r => decide (key r = k))))

/-- Model of `uniq_join_keep_dups` (lines 135-145): drop missing and empty
labels, and join the sorted distinct remainder with commas (`None` when no
label remains). -/
def uniq_join_keep_dups (s : List (Option String)) : Option String :=
  let vals := (s.filterMap (fun v => v)).filter (fun v => !(v == ""))
  if vals.isEmpty then none
  else some (String.intercalate "," (sortS strLt (dropDupsBy (fun v => v) vals)))

/-- Model of `calculate_reached_base` (lines 148-155): the `endbase` of the
last row whose `is_out` is false, else the first row's `startbase`. -/
def calculate_reached_base (group : List Seg) : String :=
  match (group.filter (fun s => !s.is_out)).getLast? with
  | some s => s.endbase
  | none => (group.headI).startbase

/-- Aggregated runner-play record (the `grouped.agg(...)` output of
lines 199-208, key columns restored by `reset_index`). -/
structure RPAgg where
  gamepk : Nat
  atbatindex : Nat
  playindex : Nat
  runnerid : Nat
  startbase : String
  endbase : String
  runnerfullname : String
  reachedbase : String
  eventtype : Option String
  movementreason : Option String
  is_out : Bool
  playid : String
deriving DecidableEq

/-- The `grouped.agg` row of lines 199-208 for one group (groups produced by
pandas are nonempty). -/
def mergeGroup (k : Nat × Nat × Nat × Nat) (g : List Seg) : RPAgg :=
  { gamepk := k.1, atbatindex := k.2.1, playindex := k.2.2.1,
    runnerid := k.2.2.2,
    startbase := (g.headI).startbase,
    endbase := (g.getLastD default).endbase,
    runnerfullname := (g.headI).runnerfullname,
    reachedbase := calculate_reached_base g,
    eventtype := uniq_join_keep_dups (g.map (fun s => s.eventtype)),
    movementreason := uniq_join_keep_dups (g.map (fun s => s.movementreason)),
    is_out := g.any (fun s => s.is_out),
    playid := (g.headI).playid }

/-- Character-list version of substring matching: does the pattern occur at
the start of the text? -/
def subAt : List Char → List Char → Bool
  | [], _ => true
  | _ :: _, [] => false
  | p :: ps, c :: cs => (p == c) && subAt ps cs

/-- Does the pattern occur anywhere in the text? -/
def hasSubList (p : List Char) : List Char → Bool
  | [] => p.isEmpty
  | c :: cs => subAt p (c :: cs) || hasSubList p cs

/-- Substring containment on strings ("home_run" has no regex metacharacters,
so pandas `str.contains` reduces to substring search). -/
def strHasSub (s pat : String) : Bool := hasSubList pat.toList s.data

/-- Model of `out["eventtype"].str.contains("home_run", na=False)`: a missing
merged event type counts as "no home run". -/
def hasHomeRun (e : Option String) : Bool :=
  match e with
  | none => false
  | some s => strHasSub s "home_run"

/-- Final runner-play record: the aggregate plus the derived flags of
lines 211-225. -/
structure RP extends RPAgg where
  is_risp : Bool
  is_firsttothird : Bool
  is_secondtohome : Bool
deriving DecidableEq

/-- Lines 211-225: `is_risp` (start in scoring position), `is_firsttothird`,
`is_secondtohome` (the latter two excluding home-run event types and outs). -/
def addFlags (a : RPAgg) : RP :=
  { toRPAgg := a,
    is_risp := (a.startbase == "2B") || (a.startbase == "3B"),
    is_firsttothird :=
      (a.startbase == "1B") && (a.reachedbase == "3B") &&
        !(hasHomeRun a.eventtype) && !a.is_out,
    is_secondtohome :=
      (a.startbase == "2B") && (a.reachedbase == "HM") &&
        !(hasHomeRun a.eventtype) && !a.is_out }

/-- Model of `process_runner_play` (lines 158-227). -/
def process_runner_play (raw : List RRaw) : List RP :=
  (groupByKey segKey4 (rSorted raw)).map (fun kg => addFlags (mergeGroup kg.1 kg.2))

/-- Two raw segments of one play agreeing on the code's dedup subset
(gamePk, atBatIndex, playIndex, runnerid, start, end) but differing on
`originBase`; the second comes from a later batch. -/
def exC3a : RRaw :=
  ⟨1, 0, 0, 5, "R", some "1B", some "1B", some "2B", false, none, none, "p",
    none, "2025-04-01"⟩

/-- Same play and same (start, end) as `exC3a` but a different `originBase`. -/
def exC3b : RRaw :=
  ⟨1, 0, 0, 5, "R", some "B", some "1B", some "2B", false, none, none, "p",
    none, "2025-04-02"⟩

/-- First chronological segment of a play: the batter runs from the box to
first base (raw `start` is "B"). -/
def exC4a : RRaw :=
  ⟨1, 0, 0, 5, "Runner X", none, some "B", some "1B", false, some "single",
    some "hit", "p1", none, "2025-04-01"⟩

/-- Second chronological segment of the same play: first to second base. -/
def exC4b : RRaw :=
  ⟨1, 0, 0, 5, "Runner X", none, some "1B", some "2B", false, some "single",
    some "advance", "p1", none, "2025-04-01"⟩

/-- A group of two segments in which the runner is out on both. -/
def exC5g : List Seg :=
  [⟨1, 0, 0, 5, "R", "2B", "2B", "3B", true, none, none, "p", none, "2025-04-01"⟩,
   ⟨1, 0, 0, 5, "R", "2B", "3B", "HM", true, none, none, "p", none, "2025-04-01"⟩]

/-- An aggregated record of a non-home-run advance from first to third. -/
def exRPA : RPAgg :=
  ⟨1, 0, 0, 5, "1B", "3B", "R", "3B", none, none, false, "p"⟩

/-- A single safe segment from first to third with no event type at all. -/
def exC10a : RRaw :=
  ⟨2, 1, 0, 7, "R", some "1B", some "1B", some "3B", false, none, none, "p",
    none, "2025-04-01"⟩

/-- A single safe segment from second to home (raw end "score") whose event
type is the empty string. -/
def exC10b : RRaw :=
  ⟨2, 1, 0, 7, "R", some "2B", some "2B", some "score", false, some "", none,
    "p", none, "2025-04-01"⟩

/-! ### Comparator laws -/

theorem LawfulCmp.irrefl {lt : α → α → Bool} (h : LawfulCmp lt) (a : α) :
    lt a a = false := by
  cases hx : lt a a with
  | false => rfl
  | true => exact absurd (h.asym _ _ hx) (by simp [hx])

/-- From a strict comparison `lt z x` we can interpolate any `y`: this is the
form of transitivity used when inserting into a sorted list. -/
theorem LawfulCmp.total3 {lt : α → α → Bool} (hl : LawfulCmp lt) {x z : α}
    (y : α) (h : lt z x = true) : lt z y = true ∨ lt y x = true := by
  rcases hl.conn z y with h1 | h1 | h1
  · exact Or.inl h1
  · exact Or.inr (hl.lt_trans _ _ _ h1 h)
  · exact Or.inr (h1 ▸ h)

theorem lawful_natLt : LawfulCmp natLt where
  asym a b h := by
    simp only [natLt, decide_eq_true_eq] at h
    simp only [natLt, decide_eq_false_iff_not]
    omega
  lt_trans a b c h1 h2 := by
    simp only [natLt, decide_eq_true_eq] at h1 h2 ⊢
    omega
  conn a b := by
    rcases Nat.lt_trichotomy a b with h | h | h
    · exact Or.inl (by simpa [natLt] using h)
    · exact Or.inr (Or.inr h)
    · exact Or.inr (Or.inl (by simpa [natLt] using h))

theorem charLt_asym (a b : Char) (h : charLt a b = true) : charLt b a = false := by
  simp only [charLt, decide_eq_true_eq] at h
  simp only [charLt, decide_eq_false_iff_not]
  omega

theorem charLt_trans (a b c : Char) (h1 : charLt a b = true)
    (h2 : charLt b c = true) : charLt a c = true := by
  simp only [charLt, decide_eq_true_eq] at h1 h2 ⊢
  omega

theorem charLt_conn (a b : Char) : charLt a b = true ∨ charLt b a = true ∨ a = b := by
  rcases Nat.lt_trichotomy a.toNat b.toNat with h | h | h
  · exact Or.inl (by simpa [charLt] using h)
  · exact Or.inr (Or.inr (Char.ext (UInt32.toNat.inj h)))
  · exact Or.inr (Or.inl (by simpa [charLt] using h))

theorem irrefl_of_asym {lt : α → α → Bool}
    (hA : ∀ a b : α, lt a b = true → lt b a = false) (a : α) : lt a a = false := by
  cases hx : lt a a with
  | false => rfl
  | true => exact absurd (hA _ _ hx) (by simp [hx])

theorem listLt_asym [DecidableEq α] {lt : α → α → Bool}
    (hA : ∀ a b : α, lt a b = true → lt b a = false) :
    ∀ as bs : List α, listLt lt as bs = true → listLt lt bs as = false
  | [], [], h => by simp [listLt] at h
  | [], _ :: _, _ => by simp [listLt]
  | _ :: _, [], h => by simp [listLt] at h
  | a :: as, b :: bs, h => by
    simp only [listLt, Bool.or_eq_true, Bool.and_eq_true, decide_eq_true_eq] at h
    rcases h with h | ⟨rfl, h⟩
    · have hba := hA _ _ h
      simp only [listLt, hba, Bool.false_or, Bool.and_eq_false_iff,
        decide_eq_false_iff_not]
      left
      intro he
      exact absurd h (by simp [he, irrefl_of_asym hA])
    · have hr := listLt_asym hA as bs h
      simp [listLt, hr, irrefl_of_asym hA a]

theorem listLt_trans [DecidableEq α] {lt : α → α → Bool}
    (hT : ∀ a b c : α, lt a b = true → lt b c = true → lt a c = true) :
    ∀ as bs cs : List α, listLt lt as bs = true → listLt lt bs cs = true →
      listLt lt as cs = true
  | [], _, _ :: _, _, _ => by simp [listLt]
  | [], _ :: _, [], _, h2 => by simp [listLt] at h2
  | [], [], _, h1, _ => by simp [listLt] at h1
  | _ :: _, [], _, h1, _ => by simp [listLt] at h1
  | _ :: _, _ :: _, [], _, h2 => by simp [listLt] at h2
  | a :: as, b :: bs, c :: cs, h1, h2 => by
    simp only [listLt, Bool.or_eq_true, Bool.and_eq_true, decide_eq_true_eq] at h1 h2 ⊢
    rcases h1 with h1 | ⟨rfl, h1⟩
    · rcases h2 with h2 | ⟨rfl, h2⟩
      · exact Or.inl (hT _ _ _ h1 h2)
      · exact Or.inl h1
    · rcases h2 with h2 | ⟨rfl, h2⟩
      · exact Or.inl h2
      · exact Or.inr ⟨rfl, listLt_trans hT as bs cs h1 h2⟩

theorem listLt_conn [DecidableEq α] {lt : α → α → Bool}
    (hC : ∀ a b : α, lt a b = true ∨ lt b a = true ∨ a = b) :
    ∀ as bs : List α, listLt lt as bs = true ∨ listLt lt bs as = true ∨ as = bs
  | [], [] => Or.inr (Or.inr rfl)
  | [], _ :: _ => Or.inl (by simp [listLt])
  | _ :: _, [] => Or.inr (Or.inl (by simp [listLt]))
  | a :: as, b :: bs => by
    rcases hC a b with h | h | rfl
    · exact Or.inl (by simp [listLt, h])
    · exact Or.inr (Or.inl (by simp [listLt, h]))
    · rcases listLt_conn hC as bs with h | h | rfl
      · exact Or.inl (by simp [listLt, h])
      · exact Or.inr (Or.inl (by simp [listLt, h]))
      · exact Or.inr (Or.inr rfl)

theorem lawful_strLt : LawfulCmp strLt where
  asym a b h := listLt_asym charLt_asym _ _ h
  lt_trans a b c h1 h2 := listLt_trans charLt_trans _ _ _ h1 h2
  conn a b := by
    rcases listLt_conn charLt_conn a.data b.data with h | h | h
    · exact Or.inl h
    · exact Or.inr (Or.inl h)
    · refine Or.inr (Or.inr ?_)
      cases a
      cases b
      exact congrArg String.mk h

theorem lawful_prodLt [DecidableEq α] {lt1 : α → α → Bool} {lt2 : β → β → Bool}
    (h1 : LawfulCmp lt1) (h2 : LawfulCmp lt2) : LawfulCmp (prodLt lt1 lt2) where
  asym p q h := by
    simp only [prodLt, Bool.or_eq_true, Bool.and_eq_true, decide_eq_true_eq] at h
    simp only [prodLt, Bool.or_eq_false_iff, Bool.and_eq_false_iff,
      decide_eq_false_iff_not]
    rcases h with h | ⟨he, h⟩
    · exact ⟨h1.asym _ _ h, Or.inl fun he => by simp [he, h1.irrefl] at h⟩
    · exact ⟨by rw [he]; exact h1.irrefl _, Or.inr (h2.asym _ _ h)⟩
  lt_trans p q r ha hb := by
    simp only [prodLt, Bool.or_eq_true, Bool.and_eq_true, decide_eq_true_eq] at ha hb ⊢
    rcases ha with ha | ⟨hea, ha⟩
    · rcases hb with hb | ⟨heb, hb⟩
      · exact Or.inl (h1.lt_trans _ _ _ ha hb)
      · exact Or.inl (heb ▸ ha)
    · rcases hb with hb | ⟨heb, hb⟩
      · exact Or.inl (hea ▸ hb)
      · exact Or.inr ⟨hea.trans heb, h2.lt_trans _ _ _ ha hb⟩
  conn p q := by
    rcases h1.conn p.1 q.1 with h | h | h
    · exact Or.inl (by simp [prodLt, h])
    · exact Or.inr (Or.inl (by simp [prodLt, h]))
    · rcases h2.conn p.2 q.2 with hb | hb | hb
      · exact Or.inl (by simp [prodLt, h, hb])
      · exact Or.inr (Or.inl (by simp [prodLt, h, hb]))
      · exact Or.inr (Or.inr (Prod.ext h hb))

theorem lawful_optLt {lt : α → α → Bool} (h : LawfulCmp lt) :
    LawfulCmp (optLt lt) where
  asym x y hx := by
    match x, y with
    | some a, some b => exact h.asym _ _ hx
    | some _, none => rfl
    | none, _ => simp [optLt] at hx
  lt_trans x y z ha hb := by
    match x, y, z with
    | some a, some b, some cc => exact h.lt_trans _ _ _ ha hb
    | some _, some _, none => rfl
    | some _, none, _ => simp [optLt] at hb
    | none, _, _ => simp [optLt] at ha
  conn x y := by
    match x, y with
    | some a, some b =>
      rcases h.conn a b with hc | hc | hc
      · exact Or.inl hc
      · exact Or.inr (Or.inl hc)
      · exact Or.inr (Or.inr (by rw [hc]))
    | some _, none => exact Or.inl rfl
    | none, some _ => exact Or.inr (Or.inl rfl)
    | none, none => exact Or.inr (Or.inr rfl)

theorem lawful_lsKeyLt : LawfulCmp lsKeyLt :=
  lawful_prodLt lawful_natLt (lawful_prodLt lawful_natLt lawful_strLt)

theorem lawful_play3Lt : LawfulCmp play3Lt :=
  lawful_prodLt lawful_natLt (lawful_prodLt lawful_natLt lawful_natLt)

theorem lawful_rKeyLt : LawfulCmp rKeyLt :=
  lawful_prodLt lawful_natLt (lawful_prodLt lawful_natLt (lawful_prodLt
    lawful_natLt (lawful_prodLt lawful_natLt
      (lawful_prodLt (lawful_optLt lawful_strLt) (lawful_optLt lawful_strLt)))))

theorem dedupLt_asym [DecidableEq κ] {kLt : κ → κ → Bool} (hk : LawfulCmp kLt)
    {dLt : δ → δ → Bool} (hd : LawfulCmp dLt) (key : α → κ) (date : α → δ)
    (a b : α) (h : dedupLt kLt key dLt date a b = true) :
    dedupLt kLt key dLt date b a = false := by
  simp only [dedupLt, Bool.or_eq_true, Bool.and_eq_true, decide_eq_true_eq] at h
  simp only [dedupLt, Bool.or_eq_false_iff, Bool.and_eq_false_iff,
    decide_eq_false_iff_not]
  rcases h with h | ⟨he, h⟩
  · exact ⟨hk.asym _ _ h, Or.inl fun he => by simp [he, hk.irrefl] at h⟩
  · exact ⟨by rw [he]; exact hk.irrefl _, Or.inr (hd.asym _ _ h)⟩

theorem dedupLt_total3 [DecidableEq κ] {kLt : κ → κ → Bool} (hk : LawfulCmp kLt)
    {dLt : δ → δ → Bool} (hd : LawfulCmp dLt) (key : α → κ) (date : α → δ)
    (x z y : α) (h : dedupLt kLt key dLt date z x = true) :
    dedupLt kLt key dLt date z y = true ∨ dedupLt kLt key dLt date y x = true := by
  simp only [dedupLt, Bool.or_eq_true, Bool.and_eq_true, decide_eq_true_eq] at h ⊢
  rcases h with h | ⟨he, h⟩
  · rcases hk.conn (key z) (key y) with h1 | h1 | h1
    · exact Or.inl (Or.inl h1)
    · exact Or.inr (Or.inl (hk.lt_trans _ _ _ h1 h))
    · exact Or.inr (Or.inl (h1 ▸ h))
  · rcases hk.conn (key z) (key y) with h1 | h1 | h1
    · exact Or.inl (Or.inl h1)
    · exact Or.inr (Or.inl (he ▸ h1))
    · rcases hd.conn (date y) (date z) with h2 | h2 | h2
      · exact Or.inl (Or.inr ⟨h1, h2⟩)
      · exact Or.inr (Or.inr ⟨h1.symm.trans he, hd.lt_trans _ _ _ h h2⟩)
      · exact Or.inr (Or.inr ⟨h1.symm.trans he, h2 ▸ h⟩)

theorem keyLt_asym {kLt : κ → κ → Bool} (hk : LawfulCmp kLt) (key : α → κ)
    (a b : α) (h : keyLt kLt key a b = true) : keyLt kLt key b a = false :=
  hk.asym _ _ h

theorem keyLt_total3 {kLt : κ → κ → Bool} (hk : LawfulCmp kLt) (key : α → κ)
    (x z y : α) (h : keyLt kLt key z x = true) :
    keyLt kLt key z y = true ∨ keyLt kLt key y x = true :=
  hk.total3 (key y) h

/-! ### Stable-sort lemmas -/

theorem insertS_perm (lt : α → α → Bool) (x : α) :
    ∀ s : List α, (insertS lt x s).Perm (x :: s)
  | [] => List.Perm.refl _
  | y :: ys => by
    simp only [insertS]
    cases h : lt y x with
    | true =>
      simp only [if_true]
      exact ((insertS_perm lt x ys).cons y).trans (List.Perm.swap x y ys)
    | false => simp

theorem sortS_perm (lt : α → α → Bool) : ∀ l : List α, (sortS lt l).Perm l
  | [] => List.Perm.refl _
  | a :: l => (insertS_perm lt a (sortS lt l)).trans ((sortS_perm lt l).cons a)

theorem mem_sortS (lt : α → α → Bool) (l : List α) (a : α) :
    a ∈ sortS lt l ↔ a ∈ l :=
  (sortS_perm lt l).mem_iff

theorem insertS_split (lt : α → α → Bool) (x : α) :
    ∀ s : List α, ∃ s₁ s₂, insertS lt x s = s₁ ++ x :: s₂ ∧ s = s₁ ++ s₂ ∧
      ∀ y ∈ s₁, lt y x = true
  | [] => ⟨[], [], rfl, rfl, by simp⟩
  | y :: ys => by
    simp only [insertS]
    cases h : lt y x with
    | true =>
      obtain ⟨s₁, s₂, h1, h2, h3⟩ := insertS_split lt x ys
      refine ⟨y :: s₁, s₂, ?_, ?_, ?_⟩
      · simp [h1]
      · simp [h2]
      · intro z hz
        rcases List.mem_cons.mp hz with rfl | hz
        · exact h
        · exact h3 z hz
    | false => exact ⟨[], y :: ys, by simp, rfl, by simp⟩

theorem insertS_pairwise {lt : α → α → Bool}
    (hA : ∀ a b : α, lt a b = true → lt b a = false)
    (hT3 : ∀ x z : α, ∀ y : α, lt z x = true → lt z y = true ∨ lt y x = true)
    (x : α) : ∀ {s : List α}, s.Pairwise (fun a b => lt b a = false) →
      (insertS lt x s).Pairwise (fun a b => lt b a = false)
  | [], _ => by simp [insertS]
  | y :: ys, hs => by
    rw [List.pairwise_cons] at hs
    obtain ⟨hy, hys⟩ := hs
    simp only [insertS]
    cases h : lt y x with
    | true =>
      simp only [if_true, List.pairwise_cons]
      refine ⟨?_, insertS_pairwise hA hT3 x hys⟩
      intro z hz
      rcases List.mem_cons.mp ((insertS_perm lt x ys).mem_iff.mp hz) with rfl | hz
      · exact hA _ _ h
      · exact hy z hz
    | false =>
      simp only [Bool.false_eq_true, if_false, List.pairwise_cons]
      refine ⟨?_, hy, hys⟩
      intro z hz
      rcases List.mem_cons.mp hz with rfl | hz
      · exact h
      · cases hzx : lt z x with
        | false => rfl
        | true =>
          rcases hT3 x z y hzx with hc | hc
          · exact absurd (hy z hz) (by simp [hc])
          · exact absurd hc (by simp [h])

theorem sortS_pairwise {lt : α → α → Bool}
    (hA : ∀ a b : α, lt a b = true → lt b a = false)
    (hT3 : ∀ x z : α, ∀ y : α, lt z x = true → lt z y = true ∨ lt y x = true) :
    ∀ l : List α, (sortS lt l).Pairwise (fun a b => lt b a = false)
  | [] => by simp [sortS]
  | a :: l => insertS_pairwise hA hT3 a (sortS_pairwise hA hT3 l)

theorem sortS_of_pairwise {lt : α → α → Bool} :
    ∀ {l : List α}, l.Pairwise (fun a b => lt b a = false) → sortS lt l = l
  | [], _ => rfl
  | a :: l, hs => by
    rw [List.pairwise_cons] at hs
    obtain ⟨ha, hl⟩ := hs
    simp only [sortS, sortS_of_pairwise hl]
    cases l with
    | nil => rfl
    | cons b t => simp [insertS, ha b (by simp)]

theorem insertS_filter_pos {lt : α → α → Bool} (p : α → Bool) {x : α}
    (hx : p x = true) (htie : ∀ y, p y = true → lt y x = false) :
    ∀ s : List α, (insertS lt x s).filter p = x :: s.filter p
  | [] => by simp [insertS, hx]
  | y :: ys => by
    simp only [insertS]
    cases h : lt y x with
    | true =>
      have hpy : p y = false := by
        cases hpy : p y with
        | false => rfl
        | true => exact absurd (htie y hpy) (by simp [h])
      simp [List.filter_cons, hpy, insertS_filter_pos p hx htie ys]
    | false => simp [List.filter_cons, hx]

theorem insertS_filter_neg {lt : α → α → Bool} (p : α → Bool) {x : α}
    (hx : p x = false) :
    ∀ s : List α, (insertS lt x s).filter p = s.filter p
  | [] => by simp [insertS, hx]
  | y :: ys => by
    simp only [insertS]
    cases h : lt y x with
    | true => simp [List.filter_cons, insertS_filter_neg p hx ys]
    | false => simp [List.filter_cons, hx]

/-- Stability of `sortS`: a family of pairwise-tied rows keeps its input
order through the sort. -/
theorem sortS_filter {lt : α → α → Bool} (p : α → Bool)
    (htie : ∀ a b, p a = true → p b = true → lt a b = false) :
    ∀ l : List α, (sortS lt l).filter p = l.filter p
  | [] => rfl
  | a :: l => by
    simp only [sortS]
    cases ha : p a with
    | true =>
      rw [insertS_filter_pos p ha (fun y hy => htie y a hy ha), sortS_filter p htie l]
      simp [List.filter_cons, ha]
    | false =>
      rw [insertS_filter_neg p ha, sortS_filter p htie l]
      simp [List.filter_cons, ha]

/-- Helper: a `find?` hit splits the list at the first match. -/
theorem find?_split {p : α → Bool} :
    ∀ {l : List α} {m : α}, l.find? p = some m →
      ∃ t₁ t₂, l = t₁ ++ m :: t₂ ∧ (∀ y ∈ t₁, p y = false) ∧ p m = true
  | [], _, h => by simp [List.find?] at h
  | a :: l, m, h => by
    rw [List.find?_cons] at h
    cases hp : p a with
    | true =>
      simp only [hp] at h
      cases h
      exact ⟨[], l, rfl, by simp, hp⟩
    | false =>
      simp only [hp] at h
      obtain ⟨t₁, t₂, h1, h2, h3⟩ := find?_split h
      exact ⟨a :: t₁, t₂, by rw [h1]; rfl, by
        intro y hy
        rcases List.mem_cons.mp hy with rfl | hy
        · exact hp
        · exact h2 y hy, h3⟩

/-! ### drop_duplicates lemmas -/

theorem dropDupsAux_sublist (key : α → κ) [DecidableEq κ] :
    ∀ (seen : List κ) (l : List α), (dropDupsAux key seen l).Sublist l
  | _, [] => List.Sublist.refl _
  | seen, a :: l => by
    simp only [dropDupsAux]
    by_cases h : key a ∈ seen
    · simp only [h, if_true]
      exact (dropDupsAux_sublist key seen l).cons a
    · simp only [h, if_false]
      exact (dropDupsAux_sublist key (key a :: seen) l).cons₂ a

theorem mem_dropDupsAux_key (key : α → κ) [DecidableEq κ] :
    ∀ (seen : List κ) (l : List α) (b : α), b ∈ dropDupsAux key seen l → key b ∉ seen
  | _, [], _, h => by simp [dropDupsAux] at h
  | seen, a :: l, b, h => by
    simp only [dropDupsAux] at h
    by_cases ha : key a ∈ seen
    · simp only [ha, if_true] at h
      exact mem_dropDupsAux_key key seen l b h
    · simp only [ha, if_false] at h
      rcases List.mem_cons.mp h with rfl | h
      · exact ha
      · have := mem_dropDupsAux_key key (key a :: seen) l b h
        intro hb
        exact this (List.mem_cons_of_mem _ hb)

theorem dropDupsAux_filter_mem (key : α → κ) [DecidableEq κ] {k : κ}
    (seen : List κ) (l : List α) (hk : k ∈ seen) :
    (dropDupsAux key seen l).filter (fun b => decide (key b = k)) = [] := by
  rw [List.filter_eq_nil_iff]
  intro b hb
  simp only [decide_eq_true_eq]
  intro he
  exact mem_dropDupsAux_key key seen l b hb (he ▸ hk)

theorem dropDupsAux_filter_not_mem (key : α → κ) [DecidableEq κ] {k : κ} :
    ∀ (seen : List κ) (l : List α), k ∉ seen →
      (dropDupsAux key seen l).filter (fun b => decide (key b = k)) =
        (l.find? (fun b => decide (key b = k))).toList
  | _, [], _ => rfl
  | seen, a :: l, hk => by
    simp only [dropDupsAux, List.find?_cons]
    by_cases ha : key a ∈ seen
    · have hne : decide (key a = k) = false := by
        simp only [decide_eq_false_iff_not]
        intro he
        exact hk (he ▸ ha)
      simp only [ha, if_true, hne]
      exact dropDupsAux_filter_not_mem key seen l hk
    · simp only [ha, if_false, List.filter_cons]
      cases he : decide (key a = k) with
      | true =>
        have hke : key a = k := of_decide_eq_true he
        simp only [if_true]
        rw [dropDupsAux_filter_mem key (key a :: seen) l (by simp [hke])]
        rfl
      | false =>
        simp only [Bool.false_eq_true, if_false]
        exact dropDupsAux_filter_not_mem key (key a :: seen) l
          (by
            intro hmem
            rcases List.mem_cons.mp hmem with h | h
            · exact absurd (decide_eq_true (h.symm)) (by simp [he])
            · exact hk h)

theorem dropDupsAux_pairwise (key : α → κ) [DecidableEq κ] :
    ∀ (seen : List κ) (l : List α),
      (dropDupsAux key seen l).Pairwise (fun a b => key a ≠ key b)
  | _, [] => List.Pairwise.nil
  | seen, a :: l => by
    simp only [dropDupsAux]
    by_cases ha : key a ∈ seen
    · simp only [ha, if_true]
      exact dropDupsAux_pairwise key seen l
    · simp only [ha, if_false, List.pairwise_cons]
      refine ⟨?_, dropDupsAux_pairwise key (key a :: seen) l⟩
      intro b hb he
      exact mem_dropDupsAux_key key (key a :: seen) l b hb (he ▸ List.mem_cons_self _ _)

theorem dropDupsAux_eq_self (key : α → κ) [DecidableEq κ] :
    ∀ (seen : List κ) (l : List α), l.Pairwise (fun a b => key a ≠ key b) →
      (∀ b ∈ l, key b ∉ seen) → dropDupsAux key seen l = l
  | _, [], _, _ => rfl
  | seen, a :: l, hp, hs => by
    rw [List.pairwise_cons] at hp
    simp only [dropDupsAux, hs a (by simp), if_false]
    congr 1
    refine dropDupsAux_eq_self key _ l hp.2 ?_
    intro b hb hmem
    rcases List.mem_cons.mp hmem with h | h
    · exact hp.1 b hb h.symm
    · exact hs b (List.mem_cons_of_mem _ hb) h

/-! ### Generic deduplicator theorems -/

/-- The survivors of key `k` are exactly the first key-`k` row of the sorted
table (possibly none). -/
theorem dedupBy_filter_key [DecidableEq κ] (kLt : κ → κ → Bool) (key : α → κ)
    (dLt : δ → δ → Bool) (date : α → δ) (rows : List α) (k : κ) :
    (dedupBy kLt key dLt date rows).filter (fun b => decide (key b = k)) =
      ((sortS (dedupLt kLt key dLt date) rows).find?
        (fun b => decide (key b = k))).toList :=
  dropDupsAux_filter_not_mem key [] _ (by simp)

theorem dedupBy_mem [DecidableEq κ] (kLt : κ → κ → Bool) (key : α → κ)
    (dLt : δ → δ → Bool) (date : α → δ) (rows : List α) (b : α)
    (hb : b ∈ dedupBy kLt key dLt date rows) : b ∈ rows :=
  (mem_sortS _ rows b).mp ((dropDupsAux_sublist key [] _).subset hb)

/-- If some row of key `k` exists, the sorted table has a first key-`k` row. -/
theorem dedupBy_find_of_mem_key [DecidableEq κ] (kLt : κ → κ → Bool)
    (key : α → κ) (dLt : δ → δ → Bool) (date : α → δ) (rows : List α) {k : κ}
    (hmem : k ∈ rows.map key) :
    ∃ m, (sortS (dedupLt kLt key dLt date) rows).find?
      (fun b => decide (key b = k)) = some m := by
  obtain ⟨r, hr, hkr⟩ := List.mem_map.mp hmem
  have hrs : r ∈ sortS (dedupLt kLt key dLt date) rows := (mem_sortS _ rows r).mpr hr
  cases hf : (sortS (dedupLt kLt key dLt date) rows).find?
      (fun b => decide (key b = k)) with
  | some m => exact ⟨m, rfl⟩
  | none =>
    exfalso
    have hnone := List.find?_eq_none.mp hf r hrs
    simp [hkr] at hnone

/-- Freshness of the surviving row: the first key-`k` row of the sorted table
is an input row of key `k`, no input row of that key has a strictly later
batch date, and among the rows tied at that latest date it is the first in
input order (stability of the sort). -/
theorem dedupBy_survivor [DecidableEq κ] [DecidableEq δ] {kLt : κ → κ → Bool}
    (hk : LawfulCmp kLt)
    {dLt : δ → δ → Bool} (hd : LawfulCmp dLt) (key : α → κ) (date : α → δ)
    (rows : List α) (k : κ) {m : α}
    (hm : (sortS (dedupLt kLt key dLt date) rows).find?
      (fun b => decide (key b = k)) = some m) :
    m ∈ rows ∧ key m = k ∧
      (∀ r ∈ rows, key r = k → dLt (date m) (date r) = false) ∧
      (rows.filter (fun r => decide (key r = k) && decide (date r = date m))).head?
        = some m := by
  have hA := dedupLt_asym hk hd key date
  have hT3 := fun x z y => dedupLt_total3 hk hd key date x z y
  have hkm : key m = k := by
    have hpm := List.find?_some hm
    simpa using hpm
  have hmem_s : m ∈ sortS (dedupLt kLt key dLt date) rows :=
    List.mem_of_find?_eq_some hm
  have hmem : m ∈ rows := (mem_sortS _ rows m).mp hmem_s
  obtain ⟨t₁, t₂, hsplit, ht₁, _⟩ := find?_split hm
  have hpair := sortS_pairwise hA hT3 rows
  rw [hsplit, List.pairwise_append] at hpair
  obtain ⟨hp1, hp2, hp12⟩ := hpair
  rw [List.pairwise_cons] at hp2
  obtain ⟨hmt₂, _⟩ := hp2
  refine ⟨hmem, hkm, ?_, ?_⟩
  · intro r hr hkr
    have hrs : r ∈ sortS (dedupLt kLt key dLt date) rows := (mem_sortS _ rows r).mpr hr
    rw [hsplit] at hrs
    rcases List.mem_append.mp hrs with hrt₁ | hrc
    · have := ht₁ r hrt₁
      rw [decide_eq_false_iff_not] at this
      exact absurd hkr this
    · rcases List.mem_cons.mp hrc with rfl | hrt₂
      · exact hd.irrefl _
      · have hlt := hmt₂ r hrt₂
        simp only [dedupLt, Bool.or_eq_false_iff, Bool.and_eq_false_iff,
          decide_eq_false_iff_not] at hlt
        rcases hlt.2 with hne | hdf
        · exact absurd (hkr.trans hkm.symm) hne
        · exact hdf
  · have htie : ∀ a b : α,
        (decide (key a = k) && decide (date a = date m)) = true →
        (decide (key b = k) && decide (date b = date m)) = true →
        dedupLt kLt key dLt date a b = false := by
      intro a b ha hb
      simp only [Bool.and_eq_true, decide_eq_true_eq] at ha hb
      simp only [dedupLt, Bool.or_eq_false_iff, Bool.and_eq_false_iff,
        decide_eq_false_iff_not]
      constructor
      · rw [ha.1, hb.1]
        exact hk.irrefl _
      · right
        rw [ha.2, hb.2]
        exact hd.irrefl _
    have hstab := sortS_filter
      (fun r => decide (key r = k) && decide (date r = date m)) htie rows
    rw [hsplit, List.filter_append] at hstab
    have ht₁p : t₁.filter
        (fun r => decide (key r = k) && decide (date r = date m)) = [] := by
      rw [List.filter_eq_nil_iff]
      intro y hy
      have hne := ht₁ y hy
      simp only [Bool.and_eq_true, decide_eq_true_eq, not_and]
      intro hky
      exact absurd (decide_eq_true hky) (by simp [hne])
    rw [ht₁p, List.nil_append] at hstab
    rw [← hstab, List.filter_cons, if_pos (by simp [hkm])]
    rfl

/-- Running the deduplicator on its own output changes nothing: the output is
sorted by (key, batch date descending) and key-unique, so the re-sort keeps
it as is and no further row is dropped. -/
theorem dedupBy_idem [DecidableEq κ] {kLt : κ → κ → Bool} (hk : LawfulCmp kLt)
    {dLt : δ → δ → Bool} (hd : LawfulCmp dLt) (key : α → κ) (date : α → δ)
    (rows : List α) :
    dedupBy kLt key dLt date (dedupBy kLt key dLt date rows) =
      dedupBy kLt key dLt date rows := by
  have hA := dedupLt_asym hk hd key date
  have hT3 := fun x z y => dedupLt_total3 hk hd key date x z y
  have hsorted : (dedupBy kLt key dLt date rows).Pairwise
      (fun a b => dedupLt kLt key dLt date b a = false) :=
    List.Pairwise.sublist (dropDupsAux_sublist key [] _) (sortS_pairwise hA hT3 rows)
  have hkeys : (dedupBy kLt key dLt date rows).Pairwise
      (fun a b => key a ≠ key b) := dropDupsAux_pairwise key [] _
  show dropDupsBy key (sortS (dedupLt kLt key dLt date)
    (dedupBy kLt key dLt date rows)) = dedupBy kLt key dLt date rows
  rw [sortS_of_pairwise hsorted]
  exact dropDupsAux_eq_self key [] _ hkeys (by simp)

/-! ### Linescore lemmas: grouped cumulative sum and shift -/

theorem prefSum_succ_lt (g : LNorm → κ) [DecidableEq κ] (rows : List LNorm)
    (k : κ) (n : Nat) (h : n < rows.length) :
    prefSum g rows (n + 1) k =
      prefSum g rows n k +
        (if g (rows.getD n default) = k then (rows.getD n default).runs else 0) := by
  unfold prefSum
  rw [List.take_succ, List.getElem?_eq_getElem h, List.getD_eq_getElem rows default h]
  rw [Option.toList_some, List.filter_append, List.map_append, List.sum_append]
  by_cases hgk : g rows[n] = k
  · simp [hgk]
  · simp [hgk]

theorem prefSum_succ_ge (g : LNorm → κ) [DecidableEq κ] (rows : List LNorm)
    (k : κ) (n : Nat) (h : rows.length ≤ n) :
    prefSum g rows (n + 1) k = prefSum g rows n k := by
  unfold prefSum
  rw [List.take_of_length_le (le_trans h (Nat.le_succ n)), List.take_of_length_le h]

/-- If no row with index in `[m, n)` belongs to group `k`, the prefix group
sums at `n` and `m` agree. -/
theorem prefSum_stable (g : LNorm → κ) [DecidableEq κ] (rows : List LNorm)
    (k : κ) :
    ∀ n m : Nat, m ≤ n →
      (∀ j, m ≤ j → j < n → j < rows.length → ¬ g (rows.getD j default) = k) →
      prefSum g rows n k = prefSum g rows m k := by
  intro n
  induction n with
  | zero =>
    intro m hm _
    have : m = 0 := Nat.le_zero.mp hm
    rw [this]
  | succ n ih =>
    intro m hm hgap
    rcases Nat.lt_or_ge n m with hge | hlt
    · have : m = n + 1 := by omega
      rw [this]
    · have hstep : prefSum g rows (n + 1) k = prefSum g rows n k := by
        by_cases hn : n < rows.length
        · rw [prefSum_succ_lt g rows k n hn]
          have := hgap n hlt (Nat.lt_succ_self n) hn
          rw [if_neg this, add_zero]
        · exact prefSum_succ_ge g rows k n (Nat.le_of_not_lt hn)
      rw [hstep]
      exact ih m hlt (fun j hj1 hj2 hj3 => hgap j hj1 (Nat.lt_succ_of_lt hj2) hj3)

theorem lastMatch_some {q : Nat → Bool} :
    ∀ {i j : Nat}, lastMatch q i = some j →
      j < i ∧ q j = true ∧ ∀ l, j < l → l < i → q l = false
  | 0, j, h => by simp [lastMatch] at h
  | i + 1, j, h => by
    simp only [lastMatch] at h
    cases hq : q i with
    | true =>
      rw [hq] at h
      simp only [if_true, Option.some.injEq] at h
      cases h
      exact ⟨Nat.lt_succ_self i, hq, fun l hl1 hl2 => absurd hl2 (by omega)⟩
    | false =>
      rw [hq] at h
      simp only [Bool.false_eq_true, if_false] at h
      obtain ⟨h1, h2, h3⟩ := lastMatch_some h
      refine ⟨Nat.lt_succ_of_lt h1, h2, fun l hl1 hl2 => ?_⟩
      rcases Nat.lt_succ_iff_lt_or_eq.mp hl2 with hl | rfl
      · exact h3 l hl1 hl
      · exact hq

theorem lastMatch_none {q : Nat → Bool} :
    ∀ {i : Nat}, lastMatch q i = none → ∀ j, j < i → q j = false
  | 0, _, j, hj => absurd hj (Nat.not_lt_zero j)
  | i + 1, h, j, hj => by
    simp only [lastMatch] at h
    cases hq : q i with
    | true =>
      rw [hq] at h
      simp at h
    | false =>
      rw [hq] at h
      simp only [Bool.false_eq_true, if_false] at h
      rcases Nat.lt_succ_iff_lt_or_eq.mp hj with hl | rfl
      · exact lastMatch_none h j hl
      · exact hq

/-- The composite "grouped cumulative sum, then grouped shift by one, then
fill 0" equals the plain sum of `runs` over the strictly earlier rows of the
same group: exactly the semantics claimed for `battingteam_score` and
`total_score`. -/
theorem shiftCum_eq_prefSum (g : LNorm → κ) [DecidableEq κ] (rows : List LNorm)
    (i : Nat) (hi : i < rows.length) :
    shiftCum g rows i = prefSum g rows i (g (rows.getD i default)) := by
  unfold shiftCum prevSame
  cases hlm : lastMatch
      (fun j => decide (g (rows.getD j default) = g (rows.getD i default))) i with
  | none =>
    have hnone := lastMatch_none hlm
    have := prefSum_stable g rows (g (rows.getD i default)) i 0 (Nat.zero_le i)
      (fun j _ hj2 _ => by
        have := hnone j hj2
        simpa using this)
    rw [this]
    rfl
  | some j =>
    obtain ⟨hji, hqj, hgap⟩ := lastMatch_some hlm
    have hgj : g (rows.getD j default) = g (rows.getD i default) := by
      simpa using hqj
    have hcum : cumAt g rows j =
        prefSum g rows (j + 1) (g (rows.getD i default)) := by
      unfold cumAt
      rw [hgj]
    have hjlen : j < rows.length := lt_trans hji hi
    have hstable := prefSum_stable g rows (g (rows.getD i default)) i (j + 1) hji
      (fun l hl1 hl2 _ => by
        have := hgap l hl1 hl2
        simpa using this)
    show cumAt g rows j = prefSum g rows i (g (rows.getD i default))
    rw [hcum, hstable]

/-- After deduplication the table is already ordered by (gamePk, inning,
half), so the re-sort of line 101 leaves it unchanged: the sorted normalized
table is just the deduplicated table mapped through runs-normalization. -/
theorem lsSorted_eq_dedup (raw : List LRaw) :
    lsSorted raw = (lsDedup raw).map normRuns := by
  unfold lsSorted
  apply sortS_of_pairwise
  rw [List.pairwise_map]
  have hded : (lsDedup raw).Pairwise
      (fun a b =>
        dedupLt lsKeyLt lsKey strLt (fun r => r.source_folder_date) b a = false) :=
    List.Pairwise.sublist (dropDupsAux_sublist lsKey [] _)
      (sortS_pairwise
        (dedupLt_asym lawful_lsKeyLt lawful_strLt lsKey (fun r => r.source_folder_date))
        (fun x z y =>
          dedupLt_total3 lawful_lsKeyLt lawful_strLt lsKey
            (fun r => r.source_folder_date) x z y) raw)
  refine hded.imp ?_
  intro a b hab
  simp only [dedupLt, Bool.or_eq_false_iff] at hab
  exact hab.1

theorem procLS_getD (raw : List LRaw) (i : Nat)
    (hi : i < (process_linescores raw).length) :
    (process_linescores raw).getD i default = mkLOut (lsSorted raw) i ∧
      i < (lsSorted raw).length := by
  have hlen : i < (lsSorted raw).length := by
    simpa [process_linescores] using hi
  refine ⟨?_, hlen⟩
  rw [List.getD_eq_getElem _ _ hi]
  simp [process_linescores]

/-! ### Claim C1 -/

/-- C1: in the linescore output (the deduplicated table sorted by
(gamePk, inning, half)), `battingteam_score` at each row equals the sum of
`runs` over the strictly earlier rows of the same (gamePk, battingteamid)
group, the shifted game-wide total equals the sum over the strictly earlier
rows of the same game, and `battingteam_score_diff` is
`battingteam_score - (total_score - battingteam_score)`; on the spec's
three-row scenario the inning-2 row gets `battingteam_score = 2` and
`battingteam_score_diff = 2`. -/
theorem claim_C1 (raw : List LRaw) (i : Nat)
    (hi : i < (process_linescores raw).length) :
    (((process_linescores raw).getD i default).battingteam_score =
        prefSum grpBT (lsSorted raw) i (grpBT ((lsSorted raw).getD i default)) ∧
      shiftCum grpG (lsSorted raw) i =
        prefSum grpG (lsSorted raw) i (grpG ((lsSorted raw).getD i default)) ∧
      ((process_linescores raw).getD i default).battingteam_score_diff =
        ((process_linescores raw).getD i default).battingteam_score -
          (shiftCum grpG (lsSorted raw) i -
            ((process_linescores raw).getD i default).battingteam_score)) ∧
    (process_linescores scenC1).map
        (fun o => (o.inning, o.half, o.battingteam_score, o.battingteam_score_diff)) =
      [(1, "BOT", 0, 0), (1, "TOP", 0, 0), (2, "TOP", 2, 2)] := by
  obtain ⟨hout, hlen⟩ := procLS_getD raw i hi
  refine ⟨⟨?_, ?_, ?_⟩, by decide⟩
  · rw [hout]
    exact shiftCum_eq_prefSum grpBT (lsSorted raw) i hlen
  · exact shiftCum_eq_prefSum grpG (lsSorted raw) i hlen
  · rw [hout]
    rfl

theorem claim_C1_witness :
    (2 < (process_linescores scenC1).length) ∧
    ((((process_linescores scenC1).getD 2 default).battingteam_score =
        prefSum grpBT (lsSorted scenC1) 2 (grpBT ((lsSorted scenC1).getD 2 default)) ∧
      shiftCum grpG (lsSorted scenC1) 2 =
        prefSum grpG (lsSorted scenC1) 2 (grpG ((lsSorted scenC1).getD 2 default)) ∧
      ((process_linescores scenC1).getD 2 default).battingteam_score_diff =
        ((process_linescores scenC1).getD 2 default).battingteam_score -
          (shiftCum grpG (lsSorted scenC1) 2 -
            ((process_linescores scenC1).getD 2 default).battingteam_score)) ∧
    (process_linescores scenC1).map
        (fun o => (o.inning, o.half, o.battingteam_score, o.battingteam_score_diff)) =
      [(1, "BOT", 0, 0), (1, "TOP", 0, 0), (2, "TOP", 2, 2)]) :=
  ⟨by decide, claim_C1 scenC1 2 (by decide)⟩

/-! ### Claim C2 -/

/-- C2: for every raw extract table and every natural key value present in
it, the deduplicator keeps exactly one row of that key; the survivor is an
input row of that key with no strictly later extraction batch among the
key's rows, and among the rows tied at that latest batch it is the first in
input order (hence deterministic given the input order). -/
theorem claim_C2 {α κ δ : Type} [DecidableEq κ] [DecidableEq δ]
    {kLt : κ → κ → Bool} (hk : LawfulCmp kLt)
    {dLt : δ → δ → Bool} (hd : LawfulCmp dLt) (key : α → κ) (date : α → δ)
    (rows : List α) (k : κ) (hmem : k ∈ rows.map key) :
    ∃ m, (dedupBy kLt key dLt date rows).filter (fun b => decide (key b = k)) = [m] ∧
      m ∈ rows ∧ key m = k ∧
      (∀ r ∈ rows, key r = k → dLt (date m) (date r) = false) ∧
      (rows.filter (fun r => decide (key r = k) && decide (date r = date m))).head?
        = some m := by
  obtain ⟨m, hm⟩ := dedupBy_find_of_mem_key kLt key dLt date rows hmem
  obtain ⟨h1, h2, h3, h4⟩ := dedupBy_survivor hk hd key date rows k hm
  refine ⟨m, ?_, h1, h2, h3, h4⟩
  rw [dedupBy_filter_key, hm]
  rfl

theorem claim_C2_witness :
    ((1 : Nat) ∈ exG2.map (fun r => r.gamePk)) ∧
    (∃ m, (dedupBy natLt (fun r => r.gamePk) strLt (fun r => r.source_folder_date)
        exG2).filter (fun b => decide (b.gamePk = 1)) = [m] ∧
      m ∈ exG2 ∧ m.gamePk = 1 ∧
      (∀ r ∈ exG2, r.gamePk = 1 →
        strLt m.source_folder_date r.source_folder_date = false) ∧
      (exG2.filter (fun r => decide (r.gamePk = 1) &&
        decide (r.source_folder_date = m.source_folder_date))).head? = some m) :=
  ⟨by decide,
    claim_C2 lawful_natLt lawful_strLt (fun r => r.gamePk)
      (fun r => r.source_folder_date) exG2 1 (by decide)⟩

/-! ### Claim C6 (corrected) -/

/-- C6 as written is false: line 98 only replaces nulls by 0 and casts to
int, it neither rejects nor clamps negative values.  A negative input `runs`
reaches the output unchanged and flows into the cumulative sums: on
`exNegRuns` the first output row carries `runs = -1` and the second row's
`battingteam_score` is `-1`. -/
theorem claim_C6_counterexample :
    (process_linescores exNegRuns).map (fun o => (o.runs, o.battingteam_score)) =
      [(-1, 0), (0, -1)] := by decide

/-- C6 amended: normalization maps null to 0 and keeps present values
unchanged, so the output `runs` are non-negative provided every present
input `runs` value is non-negative (negative inputs are propagated, not
rejected or clamped). -/
theorem claim_C6_amended (raw : List LRaw)
    (hpos : ∀ r ∈ raw, ∀ v : Int, r.runs = some v → 0 ≤ v) :
    ∀ o ∈ process_linescores raw, 0 ≤ o.runs := by
  intro o ho
  simp only [process_linescores, List.mem_map] at ho
  obtain ⟨i, hi, rfl⟩ := ho
  rw [List.mem_range] at hi
  show 0 ≤ ((lsSorted raw).getD i default).runs
  rw [lsSorted_eq_dedup raw] at hi ⊢
  have hx : ((lsDedup raw).map normRuns).getD i default ∈ (lsDedup raw).map normRuns := by
    rw [List.getD_eq_getElem _ _ hi]
    exact List.getElem_mem _
  obtain ⟨r, hr, hrx⟩ := List.mem_map.mp hx
  have hraw : r ∈ raw := dedupBy_mem lsKeyLt lsKey strLt
    (fun s => s.source_folder_date) raw r hr
  rw [← hrx]
  show 0 ≤ r.runs.getD 0
  cases hv : r.runs with
  | none => simp
  | some v => simpa using hpos r hraw v hv

theorem claim_C6_witness :
    ((∀ r ∈ scenC1, ∀ v : Int, r.runs = some v → 0 ≤ v) ∧
      ∀ o ∈ process_linescores scenC1, 0 ≤ o.runs) :=
  ⟨by decide, claim_C6_amended scenC1 (by decide)⟩

/-! ### Claim C8 (corrected) -/

/-- C8 as written is false: the deduplicator re-sorts its input, so a
key-unique input that is not sorted by (key, batch desc) comes back
reordered, not unchanged: `exG8` has distinct keys but is returned with its
two rows swapped. -/
theorem claim_C8_counterexample :
    (exG8.map (fun r => r.gamePk)).Nodup ∧ gamesDedup exG8 ≠ exG8 :=
  ⟨by decide, by decide⟩

/-- C8 amended: the deduplicator is idempotent on its own output — applying
it a second time returns the output of the first run unchanged (its output
is sorted by (key, batch desc) and key-unique, so the re-sort and the
duplicate drop are both no-ops there). -/
theorem claim_C8_amended {α κ δ : Type} [DecidableEq κ]
    {kLt : κ → κ → Bool} (hk : LawfulCmp kLt)
    {dLt : δ → δ → Bool} (hd : LawfulCmp dLt) (key : α → κ) (date : α → δ)
    (rows : List α) :
    dedupBy kLt key dLt date (dedupBy kLt key dLt date rows) =
      dedupBy kLt key dLt date rows :=
  dedupBy_idem hk hd key date rows

theorem claim_C8_witness :
    gamesDedup (gamesDedup exG8) = gamesDedup exG8 := by
  show dedupBy natLt (fun r => r.gamePk) strLt (fun r => r.source_folder_date)
      (dedupBy natLt (fun r => r.gamePk) strLt (fun r => r.source_folder_date) exG8) =
    dedupBy natLt (fun r => r.gamePk) strLt (fun r => r.source_folder_date) exG8
  exact claim_C8_amended lawful_natLt lawful_strLt
    (fun r => r.gamePk) (fun r => r.source_folder_date) exG8

/-! ### Claim C9 -/

theorem map_getD_range {β : Type} (l : List LNorm) (f : LNorm → β) :
    (List.range l.length).map (fun i => f (l.getD i default)) = l.map f := by
  apply List.ext_getElem
  · simp
  · intro n h1 h2
    have hn : n < l.length := by simpa using h2
    simp only [List.getElem_map, List.getElem_range]
    rw [List.getD_eq_getElem l default hn]

/-- C9: the linescore output rows are in bijection with the surviving
deduplicated rows; every base column except `runs` is copied unchanged from
the surviving row, `runs` is its normalized value, and (by the shape of
`LOut`) the output carries only the base columns plus `battingteam_score`
and `battingteam_score_diff` — the cumulative-sum intermediates,
`total_score` and the batch tag are all dropped. -/
theorem claim_C9 (raw : List LRaw) :
    (process_linescores raw).map
        (fun o => (o.gamePk, o.inning, o.half, o.battingteamid, o.runs)) =
      (lsDedup raw).map
        (fun r => (r.gamePk, r.inning, r.half, r.battingteamid, r.runs.getD 0)) ∧
    (process_linescores raw).length = (lsDedup raw).length := by
  have he := lsSorted_eq_dedup raw
  have hlen : (process_linescores raw).length = (lsDedup raw).length := by
    simp [process_linescores, he]
  refine ⟨?_, hlen⟩
  show ((List.range (lsSorted raw).length).map (mkLOut (lsSorted raw))).map
      (fun o => (o.gamePk, o.inning, o.half, o.battingteamid, o.runs)) = _
  rw [List.map_map]
  calc (List.range (lsSorted raw).length).map
        ((fun o : LOut => (o.gamePk, o.inning, o.half, o.battingteamid, o.runs)) ∘
          mkLOut (lsSorted raw))
      = (lsSorted raw).map
          (fun r => (r.gamePk, r.inning, r.half, r.battingteamid, r.runs)) :=
        map_getD_range (lsSorted raw)
          (fun r => (r.gamePk, r.inning, r.half, r.battingteamid, r.runs))
    _ = (lsDedup raw).map
          (fun r => (r.gamePk, r.inning, r.half, r.battingteamid, r.runs.getD 0)) := by
        rw [he, List.map_map]
        rfl

/-! ### Claim C3 (corrected) -/

/-- C3 as written is false: the dedup subset of line 170 uses the raw
`start` column (the rename of `originBase` to `startbase` only happens at
line 173), so two segments agreeing on (gamePk, atBatIndex, playIndex,
runnerid, start, end) but differing on `originBase` do NOT both survive:
only one row comes out. -/
theorem claim_C3_counterexample :
    rKey exC3a = rKey exC3b ∧ exC3a.originBase ≠ exC3b.originBase ∧
      (rDedup [exC3a, exC3b]).length = 1 :=
  ⟨by decide, by decide, by decide⟩

/-- C3 amended: segment deduplication is keyed on (gamePk, atBatIndex,
playIndex, runnerId, start, end) where `start` and `end` are the raw
segment-leg columns (not `originBase`): at most one row per six-tuple
survives, every six-tuple present in the input keeps exactly one row, and
every surviving row is an input row. -/
theorem claim_C3_amended (rows : List RRaw)
    (k : Nat × (Nat × (Nat × (Nat × (Option String × Option String))))) :
    ((rDedup rows).filter (fun b => decide (rKey b = k))).length ≤ 1 ∧
    (k ∈ rows.map rKey →
      ((rDedup rows).filter (fun b => decide (rKey b = k))).length = 1) ∧
    (∀ b ∈ rDedup rows, b ∈ rows) := by
  have hfil : (rDedup rows).filter (fun b => decide (rKey b = k)) =
      ((sortS (dedupLt rKeyLt rKey strLt (fun r => r.source_folder_date)) rows).find?
        (fun b => decide (rKey b = k))).toList :=
    dedupBy_filter_key rKeyLt rKey strLt (fun r => r.source_folder_date) rows k
  refine ⟨?_, ?_, fun b hb =>
    dedupBy_mem rKeyLt rKey strLt (fun r => r.source_folder_date) rows b hb⟩
  · rw [hfil]
    cases (sortS (dedupLt rKeyLt rKey strLt (fun r => r.source_folder_date)) rows).find?
        (fun b => decide (rKey b = k)) with
    | none => simp
    | some m => simp
  · intro hmem
    obtain ⟨m, hm⟩ := dedupBy_find_of_mem_key rKeyLt rKey strLt
      (fun r => r.source_folder_date) rows hmem
    rw [hfil, hm]
    rfl

theorem claim_C3_witness :
    ((rDedup [exC3a, exC3b]).filter
      (fun b => decide (rKey b = rKey exC3a))).length = 1 :=
  (claim_C3_amended [exC3a, exC3b] (rKey exC3a)).2.1 (by decide)

/-! ### Claim C4 (code bug) -/

/-- C4 names a code bug: the comment at line 194 says the sort "ensures
chronological order" for the first/last aggregates, but the line-195 sort
orders only by (gamepk, atbatindex, playindex); inside a play the order left
behind by the line-166 dedup sort is lexicographic on the raw (start, end)
strings.  For the chronological input "B to 1B, then 1B to 2B" the segments
are processed as [(1B, 2B), (B, 1B)] (since "1B" sorts before "B"), so the
merged record gets `endbase = "1B"` and `reachedbase = "1B"` although the
chronologically last segment ends at "2B". -/
theorem claim_C4_code_bug :
    (process_runner_play [exC4a, exC4b]).map
        (fun r => (r.startbase, r.endbase, r.reachedbase)) = [("B", "1B", "1B")] ∧
    (rSorted [exC4a, exC4b]).map (fun s => (s.start, s.endbase)) =
      [("1B", "2B"), ("B", "1B")] :=
  ⟨by decide, by decide⟩

/-! ### Claim C5 -/

/-- C5: for a nonempty play group, if some segment is safe then the merged
`reachedbase` is the `endbase` of the last segment (in processing order)
whose `is_out` is false — stated via the decomposition `g = l₁ ++ s :: l₂`
with `s` safe and everything after it out; if every segment records an out,
`reachedbase` falls back to the group's start base, which is exactly the
merged record's `startbase`. -/
theorem claim_C5 (k : Nat × Nat × Nat × Nat) (g : List Seg) (_hne : g ≠ []) :
    ((∀ s ∈ g, s.is_out = true) →
      (mergeGroup k g).reachedbase = (mergeGroup k g).startbase) ∧
    (∀ l₁ : List Seg, ∀ s : Seg, ∀ l₂ : List Seg,
      g = l₁ ++ s :: l₂ → s.is_out = false → (∀ t ∈ l₂, t.is_out = true) →
      (mergeGroup k g).reachedbase = s.endbase) := by
  constructor
  · intro hall
    show calculate_reached_base g = (g.headI).startbase
    unfold calculate_reached_base
    have hfil : g.filter (fun s => !s.is_out) = [] := by
      rw [List.filter_eq_nil_iff]
      intro s hs
      simp [hall s hs]
    rw [hfil]
    rfl
  · intro l₁ s l₂ hg hs hl₂
    show calculate_reached_base g = s.endbase
    unfold calculate_reached_base
    rw [hg, List.filter_append]
    have h2 : (s :: l₂).filter (fun t => !t.is_out) = [s] := by
      rw [List.filter_cons, if_pos (by simp [hs])]
      have : l₂.filter (fun t => !t.is_out) = [] := by
        rw [List.filter_eq_nil_iff]
        intro t ht
        simp [hl₂ t ht]
      rw [this]
    rw [h2, List.getLast?_concat]

theorem claim_C5_witness :
    (exC5g ≠ ([] : List Seg)) ∧
      (mergeGroup (1, 0, 0, 5) exC5g).reachedbase =
        (mergeGroup (1, 0, 0, 5) exC5g).startbase := by
  have h := claim_C5 (1, 0, 0, 5) exC5g (by decide)
  exact ⟨by decide, h.1 (by decide)⟩

/-! ### Claim C7 -/

/-- C7: on the merged record, `is_firsttothird` holds exactly when the play
started at 1B, safely reached 3B, with no home-run designation in the merged
event type and no out; such a record never has `is_risp` (the two flags are
mutually exclusive since 1B is not a scoring-position base), and `is_risp`
holds exactly when the start base is 2B or 3B. -/
theorem claim_C7 (a : RPAgg) :
    ((addFlags a).is_firsttothird = true ↔
      (a.startbase = "1B" ∧ a.reachedbase = "3B" ∧
        hasHomeRun a.eventtype = false ∧ a.is_out = false)) ∧
    (((addFlags a).is_firsttothird && (addFlags a).is_risp) = false) ∧
    ((addFlags a).is_risp = true ↔ (a.startbase = "2B" ∨ a.startbase = "3B")) := by
  refine ⟨?_, ?_, ?_⟩
  · simp [addFlags, and_assoc]
  · by_cases h : a.startbase = "1B"
    · simp [addFlags, h]
    · simp [addFlags, h]
  · simp [addFlags]

theorem claim_C7_witness :
    (addFlags exRPA).is_firsttothird = true ∧ (addFlags exRPA).is_risp = false := by
  have h := claim_C7 exRPA
  have hf : (addFlags exRPA).is_firsttothird = true :=
    h.1.mpr ⟨rfl, rfl, rfl, rfl⟩
  refine ⟨hf, ?_⟩
  have h2 := h.2.1
  cases hr : (addFlags exRPA).is_risp with
  | false => rfl
  | true =>
    rw [hf, hr] at h2
    exact absurd h2 (by simp)

/-! ### Claim C10 -/

/-- C10: when every label of a play group is missing or empty,
`uniq_join_keep_dups` returns None, and the home-run exclusion treats the
missing merged event type as "no home-run designation": a safe 1B-to-3B play
with no event type gets `is_firsttothird = true`, and a safe 2B-to-home play
whose event type is the empty string gets `is_secondtohome = true`, both
with merged `eventtype = none`. -/
theorem claim_C10 (vals : List (Option String))
    (h : ∀ v ∈ vals, v = none ∨ v = some "") :
    uniq_join_keep_dups vals = none ∧
    (process_runner_play [exC10a]).map (fun r => (r.eventtype, r.is_firsttothird)) =
      [(none, true)] ∧
    (process_runner_play [exC10b]).map (fun r => (r.eventtype, r.is_secondtohome)) =
      [(none, true)] := by
  refine ⟨?_, by decide, by decide⟩
  simp only [uniq_join_keep_dups]
  have hv : (vals.filterMap (fun v => v)).filter (fun v => !(v == "")) = [] := by
    rw [List.filter_eq_nil_iff]
    intro s hs
    obtain ⟨v, hvm, hvs⟩ := List.mem_filterMap.mp hs
    rcases h v hvm with rfl | rfl
    · simp at hvs
    · have : s = "" := by simpa using hvs.symm
      simp [this]
  rw [hv]
  rfl

theorem claim_C10_witness :
    (∀ v ∈ ([none, some ""] : List (Option String)), v = none ∨ v = some "") ∧
    (uniq_join_keep_dups [none, some ""] = none ∧
      (process_runner_play [exC10a]).map (fun r => (r.eventtype, r.is_firsttothird)) =
        [(none, true)] ∧
      (process_runner_play [exC10b]).map (fun r => (r.eventtype, r.is_secondtohome)) =
        [(none, true)]) :=
  ⟨by decide, claim_C10 [none, some ""] (by decide)⟩

end ETL
